import Mathlib

/-
  Verification of the energy package's C core (src/energy.c) against its
  natural-language specification.

  Modelling conventions:
  * C `double` arithmetic is modelled by exact rational arithmetic (ℚ) for
    the algebraic claims; a separate idealized IEEE-754 value domain `FP`
    (finite rationals, ±infinity, NaN) is used for the claim about
    division-by-zero propagation, where exact arithmetic is not faithful.
  * C `int` indices and sizes are modelled by ℕ (the quantities involved
    are array sizes and indices, far from overflow in every claim).
  * Pointer-indexed arrays are modelled as functions ℕ → ℚ (resp.
    ℕ → ℕ → ℚ for matrices); a pointer offset `perm + M[i]` becomes the
    function fun t => perm (M i + t).
  * `sqrt` from libm is abstracted as a function parameter s : ℚ → ℚ, so
    every statement holds for an arbitrary square-root routine, in
    particular the real one; both sides of every comparison use the same s.
-/

/-- Embedding of `twosampleE` (src/energy.c lines 245-275): the e-distance
between two samples indexed by `xrows` (length `m`) and `yrows` (length `n`)
in the distance matrix `D`, with optional bias correction. The accumulation
loops become finite sums; the `(double)(m-1)` cast of the C `int m-1` is the
ℕ-subtraction `m - 1` cast to ℚ. -/
def twosampleE (D : ℕ → ℕ → ℚ) (m n : ℕ) (xrows yrows : ℕ → ℕ)
    (unbiased : Bool) : ℚ :=
  if m < 1 ∨ n < 1 then 0
  else
    let sumxx0 : ℚ :=
      (∑ i ∈ Finset.range m, ∑ j ∈ Finset.Ico (i+1) m, D (xrows i) (xrows j))
        * (2 / ((m*m : ℕ) : ℚ))
    let sumyy0 : ℚ :=
      (∑ i ∈ Finset.range n, ∑ j ∈ Finset.Ico (i+1) n, D (yrows i) (yrows j))
        * (2 / ((n*n : ℕ) : ℚ))
    let sumxx : ℚ :=
      if unbiased then sumxx0 * ((m : ℚ) / ((m - 1 : ℕ) : ℚ)) else sumxx0
    let sumyy : ℚ :=
      if unbiased then sumyy0 * ((n : ℚ) / ((n - 1 : ℕ) : ℚ)) else sumyy0
    let sumxy : ℚ :=
      (∑ i ∈ Finset.range m, ∑ j ∈ Finset.range n, D (xrows i) (yrows j))
        / ((m*n : ℕ) : ℚ)
    ((m*n : ℕ) : ℚ) / ((m+n : ℕ) : ℚ) * (2*sumxy - sumxx - sumyy)

/-- Embedding of the offset array `M` computed inside `multisampleE`
(src/energy.c lines 228-231): M[0] = 0, M[k] = M[k-1] + sizes[k-1]. -/
def cumSizes (sizes : ℕ → ℕ) : ℕ → ℕ
  | 0 => 0
  | k+1 => cumSizes sizes k + sizes k

/-- Embedding of `multisampleE` (src/energy.c lines 217-243): the K-sample E
statistic, accumulated over group pairs i < j with the slices of the
permutation array at the offsets `cumSizes`. -/
def multisampleE (D : ℕ → ℕ → ℚ) (nsamples : ℕ) (sizes : ℕ → ℕ)
    (perm : ℕ → ℕ) (unbiased : Bool) : ℚ :=
  ∑ i ∈ Finset.range nsamples, ∑ j ∈ Finset.Ico (i+1) nsamples,
    twosampleE D (sizes i) (sizes j)
      (fun t => perm (cumSizes sizes i + t))
      (fun t => perm (cumSizes sizes j + t)) unbiased

/-- Pooled 1-dimensional scenario from the specification: observations
0, 1, 2 (group A) and 10, 11, 12 (group B). -/
def scenarioVals : ℕ → ℚ :=
  fun i => if i < 3 then (i : ℚ) else (i : ℚ) + 7

/-- Distance matrix of the scenario: absolute differences. -/
def scenarioD : ℕ → ℕ → ℚ :=
  fun i j => |scenarioVals i - scenarioVals j|

/-- Squared Euclidean distance between the flat-buffer rows starting at
offsets `p` and `q` (the inner `for k` loops of `E2sample`,
src/energy.c lines 62-65 etc.): sum of dif*dif over the d coordinates. -/
def sqDistFlat (x : ℕ → ℚ) (d p q : ℕ) : ℚ :=
  ∑ k ∈ Finset.range d, (x (p + k) - x (q + k)) * (x (p + k) - x (q + k))

/-- Embedding of `E2sample` (src/energy.c lines 45-100): the two-sample E
statistic computed on the fly from the pooled row-ordered flat buffer,
without building a distance matrix. The library `sqrt` is abstracted as the
parameter `s`. -/
def E2sample (s : ℚ → ℚ) (x : ℕ → ℚ) (m n d : ℕ) : ℚ :=
  let sumxy : ℚ :=
    (∑ i ∈ Finset.range m, ∑ j ∈ Finset.Ico m (m+n),
      s (sqDistFlat x d (i*d) (j*d))) / ((m*n : ℕ) : ℚ)
  let sumxx : ℚ :=
    (∑ i ∈ Finset.Ico 1 m, ∑ j ∈ Finset.range i,
      s (sqDistFlat x d (i*d) (j*d))) / ((m*m : ℕ) : ℚ)
  let sumyy : ℚ :=
    (∑ i ∈ Finset.Ico (m+1) (m+n), ∑ j ∈ Finset.Ico m i,
      s (sqDistFlat x d (i*d) (j*d))) / ((n*n : ℕ) : ℚ)
  let w : ℚ := ((m*n : ℕ) : ℚ) / ((m+n : ℕ) : ℚ)
  2 * w * (sumxy - sumxx - sumyy)

/-- Modelled from the spec: the DistanceMatrix component (spec 4.1) realized
by `Euclidean_distance`/`distance` in utilities.c, which is not under src/.
Entry (i,j) is the Euclidean distance between rows i and j of the flat
row-ordered buffer, with the square root abstracted as the parameter `s`. -/
def distMatrix (s : ℚ → ℚ) (x : ℕ → ℚ) (d : ℕ) : ℕ → ℕ → ℚ :=
  fun i j => s (sqDistFlat x d (i*d) (j*d))

/-- Modelled from the spec: `matrix_from_buffer` (spec 6), realized by
`vector2matrix` in utilities.c, which is not under src/. It reshapes the
flat caller buffer into a rows × cols view, honoring whether the buffer is
stored in row-major order. -/
def vector2matrix (x : ℕ → ℚ) (nrows ncols : ℕ) (byrow : Bool) :
    ℕ → ℕ → ℚ :=
  fun i j => if byrow then x (i * ncols + j) else x (j * nrows + i)

/-- Modelled from the spec: `distance` (utilities.c, not under src/) builds
the N×N matrix of Euclidean distances between the rows of an N×d data
matrix; the square root is abstracted as the parameter `s`. -/
def distanceFromData (s : ℚ → ℚ) (data : ℕ → ℕ → ℚ) (d : ℕ) :
    ℕ → ℕ → ℚ :=
  fun i j =>
    s (∑ k ∈ Finset.range d, (data i k - data j k) * (data i k - data j k))

/-- State threaded through the bootstrap loop of `ksampleEtest`: the
distance matrix (placed in the state to record that the loop body never
writes it), the permutation array, the replicate statistics collected so
far, and the exceedance counter `ek`. -/
structure BootState where
  D : ℕ → ℕ → ℚ
  perm : ℕ → ℕ
  es : List ℚ
  ek : ℕ

/-- One iteration of the bootstrap loop of `ksampleEtest`
(src/energy.c lines 148-152): permute, recompute the statistic, record it,
and bump the counter on strict exceedance. The external `permute`
collaborator is the oracle `shuffle`, indexed by the iteration number. -/
def bootStep (e0 : ℚ) (K : ℕ) (sizes : ℕ → ℕ) (unbiased : Bool)
    (shuffle : ℕ → (ℕ → ℕ) → ℕ → ℕ) (b : ℕ) (st : BootState) : BootState :=
  let p := shuffle b st.perm
  let eb := multisampleE st.D K sizes p unbiased
  { D := st.D, perm := p, es := st.es ++ [eb],
    ek := st.ek + (if e0 < eb then 1 else 0) }

/-- The bootstrap loop run for a given number of iterations. -/
def bootLoop (e0 : ℚ) (K : ℕ) (sizes : ℕ → ℕ) (unbiased : Bool)
    (shuffle : ℕ → (ℕ → ℕ) → ℕ → ℕ) : ℕ → BootState → BootState
  | 0, st => st
  | b+1, st => bootStep e0 K sizes unbiased shuffle b
      (bootLoop e0 K sizes unbiased shuffle b st)

/-- The permutation array contents after a given number of in-place
shuffles starting from a given array. -/
def permIter (shuffle : ℕ → (ℕ → ℕ) → ℕ → ℕ) : ℕ → (ℕ → ℕ) → ℕ → ℕ
  | 0, p => p
  | b+1, p => shuffle b (permIter shuffle b p)

/-- The outputs of `ksampleEtest`: observed statistic, replicate vector,
p-value (None models the C code leaving *pval unwritten), and — for the
frame-condition claims — the final contents of the distance matrix and of
the permutation array. -/
structure KResult where
  e0 : ℚ
  e : List ℚ
  pval : Option ℚ
  Dout : ℕ → ℕ → ℚ
  permOut : ℕ → ℕ

/-- Embedding of `ksampleEtest` (src/energy.c lines 102-159): pool the
sizes into N, build the distance matrix (from coordinates when dim > 0,
otherwise reshape the caller's buffer directly), compute the observed
statistic on the identity permutation, then run the bootstrap loop and
form the p-value when R > 0. The C `int *R` is modelled by ℕ: the C code
treats every R ≤ 0 identically (the loop `for (b=0; b<B; b++)` and the
guard `if (B > 0)` are both vacuous), so R = 0 stands for all of them. -/
def ksampleEtest (x : ℕ → ℚ) (byrow : Bool) (nsamples : ℕ) (sizes : ℕ → ℕ)
    (dim : ℕ) (R : ℕ) (unbiased : Bool)
    (shuffle : ℕ → (ℕ → ℕ) → ℕ → ℕ) (s : ℚ → ℚ) : KResult :=
  let N := ∑ k ∈ Finset.range nsamples, sizes k
  let D : ℕ → ℕ → ℚ :=
    if 0 < dim then distanceFromData s (vector2matrix x N dim byrow) dim
    else vector2matrix x N N byrow
  let e0 := multisampleE D nsamples sizes (fun i => i) unbiased
  let st := bootLoop e0 nsamples sizes unbiased shuffle R
    { D := D, perm := fun i => i, es := [], ek := 0 }
  { e0 := e0, e := st.es,
    pval := if 0 < R then some (((st.ek : ℚ) + 1) / ((R : ℚ) + 1)) else none,
    Dout := st.D, permOut := st.perm }

/-- The permutation array restricted to the pooled index range 0..N-1 is a
bijection of that range onto itself. -/
def bijOnIio (p : ℕ → ℕ) (N : ℕ) : Prop :=
  Set.BijOn p (Set.Iio N) (Set.Iio N)

/-- Idealized IEEE-754 double values for the division-by-zero claim: finite
values are exact rationals (the operations on the C7 path are exact, so no
rounding model is needed), plus +infinity, -infinity and NaN. Signed zeros
are identified; the divisors reached on the claim's path are nonnegative,
so the distinction never matters there. -/
inductive FP where
  | nan : FP
  | inf : FP
  | ninf : FP
  | fin : ℚ → FP
deriving DecidableEq

/-- IEEE negation. -/
def FP.neg : FP → FP
  | FP.nan => FP.nan
  | FP.inf => FP.ninf
  | FP.ninf => FP.inf
  | FP.fin a => FP.fin (-a)

/-- IEEE addition: NaN absorbs, opposite infinities give NaN. -/
def FP.add : FP → FP → FP
  | FP.nan, _ => FP.nan
  | FP.inf, FP.nan => FP.nan
  | FP.inf, FP.ninf => FP.nan
  | FP.inf, _ => FP.inf
  | FP.ninf, FP.nan => FP.nan
  | FP.ninf, FP.inf => FP.nan
  | FP.ninf, _ => FP.ninf
  | FP.fin _, FP.nan => FP.nan
  | FP.fin _, FP.inf => FP.inf
  | FP.fin _, FP.ninf => FP.ninf
  | FP.fin a, FP.fin b => FP.fin (a + b)

/-- IEEE subtraction: x - y = x + (-y). -/
def FP.sub (a b : FP) : FP := a.add b.neg

/-- IEEE multiplication: NaN absorbs, 0 times an infinity is NaN. -/
def FP.mul : FP → FP → FP
  | FP.nan, _ => FP.nan
  | _, FP.nan => FP.nan
  | FP.inf, FP.inf => FP.inf
  | FP.inf, FP.ninf => FP.ninf
  | FP.ninf, FP.inf => FP.ninf
  | FP.ninf, FP.ninf => FP.inf
  | FP.inf, FP.fin b =>
      if b = 0 then FP.nan else if 0 < b then FP.inf else FP.ninf
  | FP.fin a, FP.inf =>
      if a = 0 then FP.nan else if 0 < a then FP.inf else FP.ninf
  | FP.ninf, FP.fin b =>
      if b = 0 then FP.nan else if 0 < b then FP.ninf else FP.inf
  | FP.fin a, FP.ninf =>
      if a = 0 then FP.nan else if 0 < a then FP.ninf else FP.inf
  | FP.fin a, FP.fin b => FP.fin (a * b)

/-- IEEE division: NaN absorbs, inf/inf is NaN, finite/inf is 0, finite
nonzero over (+)0 is a signed infinity, 0/0 is NaN. -/
def FP.div : FP → FP → FP
  | FP.nan, _ => FP.nan
  | _, FP.nan => FP.nan
  | FP.inf, FP.inf => FP.nan
  | FP.inf, FP.ninf => FP.nan
  | FP.ninf, FP.inf => FP.nan
  | FP.ninf, FP.ninf => FP.nan
  | FP.inf, FP.fin b => if 0 ≤ b then FP.inf else FP.ninf
  | FP.ninf, FP.fin b => if 0 ≤ b then FP.ninf else FP.inf
  | FP.fin _, FP.inf => FP.fin 0
  | FP.fin _, FP.ninf => FP.fin 0
  | FP.fin a, FP.fin b =>
      if b = 0 then
        (if a = 0 then FP.nan else if 0 < a then FP.inf else FP.ninf)
      else FP.fin (a / b)

/-- Finiteness test: only `fin` values are finite. -/
def FP.isFinite : FP → Bool
  | FP.fin _ => true
  | _ => false

/-- The cross-pair accumulation loop of `twosampleE` in FP arithmetic, in
the source's iteration order. -/
def fpSumXY (m n : ℕ) (f : ℕ → ℕ → FP) : FP :=
  (List.range m).foldl (fun a i =>
    (List.range n).foldl (fun b j => b.add (f i j)) a) (FP.fin 0)

/-- The within-sample upper-triangle accumulation loop of `twosampleE` in
FP arithmetic (j runs from i+1 to m-1). -/
def fpSumUpper (m : ℕ) (f : ℕ → ℕ → FP) : FP :=
  (List.range m).foldl (fun a i =>
    (List.range (m - (i+1))).foldl (fun b t => b.add (f i (i+1+t))) a)
    (FP.fin 0)

/-- Embedding of `twosampleE` (src/energy.c lines 245-275) over the
idealized IEEE-754 domain, operation for operation in the source's order;
used for the claim about unguarded division by zero. -/
def twosampleE_fp (D : ℕ → ℕ → FP) (m n : ℕ) (xrows yrows : ℕ → ℕ)
    (unbiased : Bool) : FP :=
  if m < 1 ∨ n < 1 then FP.fin 0
  else
    let sumxx0 : FP := (fpSumUpper m (fun i j => D (xrows i) (xrows j))).mul
      ((FP.fin 2).div (FP.fin ((m*m : ℕ) : ℚ)))
    let sumyy0 : FP := (fpSumUpper n (fun i j => D (yrows i) (yrows j))).mul
      ((FP.fin 2).div (FP.fin ((n*n : ℕ) : ℚ)))
    let sumxx : FP := if unbiased then
        sumxx0.mul ((FP.fin (m : ℚ)).div (FP.fin ((m - 1 : ℕ) : ℚ)))
      else sumxx0
    let sumyy : FP := if unbiased then
        sumyy0.mul ((FP.fin (n : ℚ)).div (FP.fin ((n - 1 : ℕ) : ℚ)))
      else sumyy0
    let sumxy : FP := (fpSumXY m n (fun i j => D (xrows i) (yrows j))).div
      (FP.fin ((m*n : ℕ) : ℚ))
    ((FP.fin ((m*n : ℕ) : ℚ)).div (FP.fin ((m+n : ℕ) : ℚ))).mul
      ((((FP.fin 2).mul sumxy).sub sumxx).sub sumyy)

/-- C1: twosampleE computes the energy distance
(m·n)/(m+n) · (2·sumxy − sumxx − sumyy) with the stated normalizations and
bias corrections, and returns 0 when m < 1 or n < 1. -/
theorem c1_twosampleE_formula (D : ℕ → ℕ → ℚ) (m n : ℕ) (xrows yrows : ℕ → ℕ)
    (unbiased : Bool)
    (_hsym : ∀ i j, D i j = D j i)
    (_hdisj : ∀ i, i < m → ∀ j, j < n → xrows i ≠ yrows j) :
    twosampleE D m n xrows yrows unbiased =
      if m < 1 ∨ n < 1 then 0
      else
        ((m : ℚ) * n) / ((m : ℚ) + n) *
          (2 * ((∑ i ∈ Finset.range m, ∑ j ∈ Finset.range n,
                  D (xrows i) (yrows j)) / ((m : ℚ) * n))
           - (if unbiased then (m : ℚ) / ((m : ℚ) - 1) else 1) *
               (2 / ((m : ℚ) * m) *
                 ∑ i ∈ Finset.range m, ∑ j ∈ Finset.Ico (i+1) m,
                   D (xrows i) (xrows j))
           - (if unbiased then (n : ℚ) / ((n : ℚ) - 1) else 1) *
               (2 / ((n : ℚ) * n) *
                 ∑ i ∈ Finset.range n, ∑ j ∈ Finset.Ico (i+1) n,
                   D (yrows i) (yrows j))) := by
  unfold twosampleE
  split
  · rfl
  · rename_i h
    push_neg at h
    obtain ⟨hm, hn⟩ := h
    have hm1 : 1 ≤ m := hm
    have hn1 : 1 ≤ n := hn
    have hmc : ((m - 1 : ℕ) : ℚ) = (m : ℚ) - 1 := by
      push_cast [Nat.cast_sub hm1]; ring
    cases unbiased <;>
      simp only [if_true, if_false, Bool.false_eq_true, hmc,
        Nat.cast_mul, Nat.cast_add, Nat.cast_ofNat] <;>
      · push_cast [Nat.cast_sub hm1, Nat.cast_sub hn1]
        ring

/-- C1 witness: the formula theorem applied at the specification's concrete
scenario (two groups of size 3, distances = absolute differences,
unbiased = 0), where the statistic evaluates to 82/3 = 27.333... . -/
theorem c1_twosampleE_formula_witness :
    twosampleE scenarioD 3 3 (fun i => i) (fun j => 3+j) false = 82/3 := by
  have h := c1_twosampleE_formula scenarioD 3 3 (fun i => i) (fun j => 3+j)
    false (fun i j => abs_sub_comm _ _)
    (by intro i hi j hj; show i ≠ 3 + j; omega)
  rw [h]
  norm_num [Finset.sum_range_succ, Finset.sum_Ico_succ_top, scenarioD,
    scenarioVals]

/-- The offsets computed inside multisampleE are the prefix sums of the
group sizes. -/
theorem cumSizes_eq_sum (sizes : ℕ → ℕ) (k : ℕ) :
    cumSizes sizes k = ∑ r ∈ Finset.range k, sizes r := by
  induction k with
  | zero => rfl
  | succ k ih => simp [cumSizes, Finset.sum_range_succ, ih]

/-- C2: multisampleE is the sum of twosampleE over all unordered pairs of
groups i < j < K, where group k's index list is the slice of the
permutation array of length sizes[k] starting at the prefix-sum offset. -/
theorem c2_multisampleE_pair_sum (D : ℕ → ℕ → ℚ) (K : ℕ) (sizes : ℕ → ℕ)
    (perm : ℕ → ℕ) (unbiased : Bool) (_hK : 2 ≤ K) :
    multisampleE D K sizes perm unbiased =
      ∑ i ∈ Finset.range K, ∑ j ∈ Finset.Ico (i+1) K,
        twosampleE D (sizes i) (sizes j)
          (fun t => perm ((∑ r ∈ Finset.range i, sizes r) + t))
          (fun t => perm ((∑ r ∈ Finset.range j, sizes r) + t)) unbiased := by
  simp [multisampleE, cumSizes_eq_sum]

/-- C2 witness: with K = 2 equal groups of size 3 on the scenario distance
matrix and the identity permutation, the pair-sum evaluates to the
scenario's statistic 82/3. -/
theorem c2_multisampleE_pair_sum_witness :
    multisampleE scenarioD 2 (fun _ => 3) (fun i => i) false = 82/3 := by
  have h := c2_multisampleE_pair_sum scenarioD 2 (fun _ => 3) (fun i => i)
    false (by norm_num)
  rw [h]
  norm_num [Finset.sum_range_succ, Finset.sum_Ico_eq_sum_range, twosampleE,
    Finset.sum_Ico_succ_top, scenarioD, scenarioVals]

/-- C5: with K = 2 groups, multisampleE collapses to a single call of
twosampleE on the two groups' full index ranges: the slices of the
permutation at offsets 0 and sizes[0]. -/
theorem c5_multisampleE_two_groups (D : ℕ → ℕ → ℚ) (sizes : ℕ → ℕ)
    (perm : ℕ → ℕ) (unbiased : Bool) :
    multisampleE D 2 sizes perm unbiased =
      twosampleE D (sizes 0) (sizes 1)
        (fun t => perm t) (fun t => perm (sizes 0 + t)) unbiased := by
  simp [multisampleE, Finset.sum_range_succ, Finset.sum_Ico_eq_sum_range,
    cumSizes]

/-- C6: swapping the two groups leaves twosampleE unchanged when the
distance matrix is symmetric. -/
theorem c6_twosampleE_swap (D : ℕ → ℕ → ℚ) (m n : ℕ) (xrows yrows : ℕ → ℕ)
    (unbiased : Bool) (hsym : ∀ i j, D i j = D j i) :
    twosampleE D m n xrows yrows unbiased =
      twosampleE D n m yrows xrows unbiased := by
  have hxy : (∑ i ∈ Finset.range n, ∑ j ∈ Finset.range m,
      D (yrows i) (xrows j))
      = ∑ i ∈ Finset.range m, ∑ j ∈ Finset.range n,
          D (xrows i) (yrows j) := by
    rw [Finset.sum_comm]
    exact Finset.sum_congr rfl fun i _ =>
      Finset.sum_congr rfl fun j _ => hsym _ _
  simp only [twosampleE]
  by_cases hg : m < 1 ∨ n < 1
  · rw [if_pos hg, if_pos (Or.symm hg)]
  · rw [if_neg hg, if_neg (fun hc => hg (Or.symm hc)), hxy,
      Nat.mul_comm n m, Nat.add_comm n m]
    ring

/-- C6 witness: swap symmetry at the concrete scenario. -/
theorem c6_twosampleE_swap_witness :
    twosampleE scenarioD 3 3 (fun i => i) (fun j => 3+j) false =
      twosampleE scenarioD 3 3 (fun j => 3+j) (fun i => i) false :=
  c6_twosampleE_swap scenarioD 3 3 (fun i => i) (fun j => 3+j) false
    (fun _ _ => abs_sub_comm _ _)

/-- The squared distance between two rows is symmetric in the two rows. -/
theorem sqDistFlat_symm (x : ℕ → ℚ) (d p q : ℕ) :
    sqDistFlat x d p q = sqDistFlat x d q p :=
  Finset.sum_congr rfl fun k _ => by ring

/-- Summing over the pairs i < j < m equals summing over the pairs j < i < m
with the two roles exchanged. -/
theorem sum_pairs_swap (m : ℕ) (f : ℕ → ℕ → ℚ) :
    ∑ i ∈ Finset.range m, ∑ j ∈ Finset.Ico (i+1) m, f i j
      = ∑ i ∈ Finset.range m, ∑ j ∈ Finset.range i, f j i := by
  induction m with
  | zero => simp
  | succ m ih =>
    rw [Finset.sum_range_succ, Finset.sum_range_succ, Finset.Ico_self,
      Finset.sum_empty, add_zero,
      Finset.sum_congr rfl (fun i hi =>
        Finset.sum_Ico_succ_top (Finset.mem_range.mp hi) (f i)),
      Finset.sum_add_distrib, ih]

/-- A triangular double sum over indices shifted by m equals the same
triangular sum over indices counted from 0. -/
theorem sum_tri_shift (m n : ℕ) (f : ℕ → ℕ → ℚ) :
    ∑ i ∈ Finset.Ico (m+1) (m+n), ∑ j ∈ Finset.Ico m i, f i j
      = ∑ i ∈ Finset.range n, ∑ j ∈ Finset.range i, f (m+i) (m+j) := by
  induction n with
  | zero => simp
  | succ n ih =>
    rcases Nat.eq_zero_or_pos n with hn | hn
    · subst hn; simp
    · have h1 : m + 1 ≤ m + n := by omega
      rw [show m + (n+1) = (m+n) + 1 from rfl,
        Finset.sum_Ico_succ_top h1, Finset.sum_range_succ, ih]
      congr 1
      rw [Finset.sum_Ico_eq_sum_range]
      simp

/-- Dropping index 0 from an outer sum whose 0 term vanishes. -/
theorem sum_Ico_one_of_zero (m : ℕ) (F : ℕ → ℚ) (h0 : F 0 = 0) :
    ∑ i ∈ Finset.Ico 1 m, F i = ∑ i ∈ Finset.range m, F i := by
  cases m with
  | zero => simp
  | succ m =>
    rw [Finset.range_eq_Ico,
      Finset.sum_eq_sum_Ico_succ_bot (Nat.succ_pos m), h0, zero_add]

/-- C10: E2sample, which accumulates Euclidean distances on the fly,
returns the same value as building the pairwise distance matrix and calling
twosampleE with unbiased = 0 on the identity index ranges 0..m-1 and
m..m+n-1. -/
theorem c10_E2sample_eq_twosampleE (s : ℚ → ℚ) (x : ℕ → ℚ) (m n d : ℕ)
    (hm : 1 ≤ m) (hn : 1 ≤ n) (_hd : 1 ≤ d) :
    E2sample s x m n d =
      twosampleE (distMatrix s x d) m n (fun i => i) (fun j => m + j)
        false := by
  simp only [E2sample, twosampleE, distMatrix, Bool.false_eq_true, if_false]
  rw [if_neg (by omega)]
  have hxy : (∑ i ∈ Finset.range m, ∑ j ∈ Finset.Ico m (m+n),
        s (sqDistFlat x d (i*d) (j*d)))
      = ∑ i ∈ Finset.range m, ∑ j ∈ Finset.range n,
          s (sqDistFlat x d (i*d) ((m+j)*d)) := by
    refine Finset.sum_congr rfl fun i _ => ?_
    rw [Finset.sum_Ico_eq_sum_range]
    simp
  have hxx : (∑ i ∈ Finset.range m, ∑ j ∈ Finset.Ico (i+1) m,
        s (sqDistFlat x d (i*d) (j*d)))
      = ∑ i ∈ Finset.Ico 1 m, ∑ j ∈ Finset.range i,
          s (sqDistFlat x d (i*d) (j*d)) := by
    rw [sum_pairs_swap m (fun i j => s (sqDistFlat x d (i*d) (j*d)))]
    rw [sum_Ico_one_of_zero m _ (by simp)]
    exact Finset.sum_congr rfl fun i _ => Finset.sum_congr rfl fun j _ => by
      rw [sqDistFlat_symm]
  have hyy : (∑ i ∈ Finset.range n, ∑ j ∈ Finset.Ico (i+1) n,
        s (sqDistFlat x d ((m+i)*d) ((m+j)*d)))
      = ∑ i ∈ Finset.Ico (m+1) (m+n), ∑ j ∈ Finset.Ico m i,
          s (sqDistFlat x d (i*d) (j*d)) := by
    rw [sum_tri_shift m n (fun i j => s (sqDistFlat x d (i*d) (j*d)))]
    rw [sum_pairs_swap n (fun i j => s (sqDistFlat x d ((m+i)*d) ((m+j)*d)))]
    exact Finset.sum_congr rfl fun i _ => Finset.sum_congr rfl fun j _ => by
      rw [sqDistFlat_symm]
  rw [hxy, hxx, hyy]
  ring

/-- C10 witness: the equivalence applied at the concrete scenario data
(values 0,1,2,10,11,12 in one dimension, with the identity in place of the
square root). -/
theorem c10_E2sample_eq_twosampleE_witness :
    E2sample (fun q => q) scenarioVals 3 3 1 =
      twosampleE (distMatrix (fun q => q) scenarioVals 1) 3 3
        (fun i => i) (fun j => 3 + j) false :=
  c10_E2sample_eq_twosampleE (fun q => q) scenarioVals 3 3 1
    (by norm_num) (by norm_num) (by norm_num)

/-- The bootstrap loop never writes the distance matrix. -/
theorem bootLoop_D (e0 : ℚ) (K : ℕ) (sizes : ℕ → ℕ) (u : Bool)
    (sh : ℕ → (ℕ → ℕ) → ℕ → ℕ) (n : ℕ) (st : BootState) :
    (bootLoop e0 K sizes u sh n st).D = st.D := by
  induction n with
  | zero => rfl
  | succ n ih => simp [bootLoop, bootStep, ih]

/-- After n iterations the permutation array holds the n-fold shuffle of
its initial contents. -/
theorem bootLoop_perm (e0 : ℚ) (K : ℕ) (sizes : ℕ → ℕ) (u : Bool)
    (sh : ℕ → (ℕ → ℕ) → ℕ → ℕ) (n : ℕ) (st : BootState) :
    (bootLoop e0 K sizes u sh n st).perm = permIter sh n st.perm := by
  induction n with
  | zero => rfl
  | succ n ih => simp [bootLoop, bootStep, permIter, ih]

/-- The replicate statistics recorded by the loop: replicate b is the
statistic of the (b+1)-fold shuffled permutation, all read off the same
distance matrix. -/
theorem bootLoop_es (e0 : ℚ) (K : ℕ) (sizes : ℕ → ℕ) (u : Bool)
    (sh : ℕ → (ℕ → ℕ) → ℕ → ℕ) (n : ℕ) (st : BootState) :
    (bootLoop e0 K sizes u sh n st).es =
      st.es ++ (List.range n).map (fun b =>
        multisampleE st.D K sizes (permIter sh (b+1) st.perm) u) := by
  induction n with
  | zero => simp [bootLoop]
  | succ n ih =>
    simp [bootLoop, bootStep, ih, bootLoop_D, bootLoop_perm, List.range_succ,
      permIter]

/-- The exceedance counter equals the number of replicates whose statistic
strictly exceeds the observed one. -/
theorem bootLoop_ek (e0 : ℚ) (K : ℕ) (sizes : ℕ → ℕ) (u : Bool)
    (sh : ℕ → (ℕ → ℕ) → ℕ → ℕ) (n : ℕ) (st : BootState) :
    (bootLoop e0 K sizes u sh n st).ek =
      st.ek + ((List.range n).filter (fun b =>
        e0 < multisampleE st.D K sizes (permIter sh (b+1) st.perm) u)).length
      := by
  induction n with
  | zero => simp [bootLoop]
  | succ n ih =>
    have hperm : permIter sh (n+1) st.perm = sh n (permIter sh n st.perm) :=
      rfl
    by_cases hlt :
        e0 < multisampleE st.D K sizes (permIter sh (n+1) st.perm) u <;>
      · simp [bootLoop, bootStep, ih, bootLoop_D, bootLoop_perm,
          List.range_succ, List.filter_append, ← hperm, hlt]
        try omega

/-- Counting with a predicate on the mapped values equals counting with the
composed predicate on the indices. -/
theorem filter_length_map (f : ℕ → ℚ) (p : ℚ → Bool) (l : List ℕ) :
    ((l.map f).filter p).length = (l.filter (fun b => p (f b))).length := by
  induction l with
  | nil => rfl
  | cons a l ih =>
    by_cases h : p (f a) <;> simp [List.filter_cons, h, ih]

/-- A filter by an everywhere-false predicate has length 0. -/
theorem filter_length_eq_zero (p : ℕ → Bool) (l : List ℕ)
    (h : ∀ a ∈ l, p a = false) : (l.filter p).length = 0 := by
  induction l with
  | nil => rfl
  | cons a l ih =>
    rw [List.filter_cons, if_neg (by simp [h a (List.mem_cons_self a l)])]
    exact ih fun b hb => h b (List.mem_cons_of_mem a hb)

/-- C3: with R > 0 the p-value is (count_exceeding + 1)/(R + 1), counting
replicates whose statistic strictly exceeds the observed one, so it lies in
(0, 1] and equals 1/(R+1) whenever the observed statistic is the maximum;
with R = 0 the replicate loop is skipped and the p-value is left unwritten
(modelled as none). -/
theorem c3_ksampleEtest_pval (x : ℕ → ℚ) (byrow : Bool) (K : ℕ)
    (sizes : ℕ → ℕ) (dim R : ℕ) (u : Bool)
    (sh : ℕ → (ℕ → ℕ) → ℕ → ℕ) (s : ℚ → ℚ) :
    (0 < R →
      (ksampleEtest x byrow K sizes dim R u sh s).pval =
        some (((List.length (List.filter (fun v =>
            (ksampleEtest x byrow K sizes dim R u sh s).e0 < v)
            (ksampleEtest x byrow K sizes dim R u sh s).e) : ℚ) + 1)
          / ((R : ℚ) + 1)) ∧
      (∀ q, (ksampleEtest x byrow K sizes dim R u sh s).pval = some q →
        0 < q ∧ q ≤ 1) ∧
      ((∀ v ∈ (ksampleEtest x byrow K sizes dim R u sh s).e,
          v ≤ (ksampleEtest x byrow K sizes dim R u sh s).e0) →
        (ksampleEtest x byrow K sizes dim R u sh s).pval =
          some (1 / ((R : ℚ) + 1)))) ∧
    (R = 0 →
      (ksampleEtest x byrow K sizes dim R u sh s).pval = none ∧
      (ksampleEtest x byrow K sizes dim R u sh s).e = []) := by
  constructor
  · intro hR
    refine ⟨?_, ?_, ?_⟩
    · simp only [ksampleEtest, bootLoop_es, bootLoop_ek, List.nil_append,
        zero_add]
      rw [if_pos hR, filter_length_map]
    · intro q hq
      simp only [ksampleEtest, bootLoop_ek, zero_add] at hq
      rw [if_pos hR, Option.some_inj] at hq
      subst hq
      constructor
      · positivity
      · rw [div_le_one (by positivity)]
        have hle : ((List.range R).filter (fun b =>
            multisampleE (if 0 < dim then
                distanceFromData s (vector2matrix x
                  (∑ k ∈ Finset.range K, sizes k) dim byrow) dim
              else vector2matrix x (∑ k ∈ Finset.range K, sizes k)
                (∑ k ∈ Finset.range K, sizes k) byrow) K sizes
              (fun i => i) u <
            multisampleE (if 0 < dim then
                distanceFromData s (vector2matrix x
                  (∑ k ∈ Finset.range K, sizes k) dim byrow) dim
              else vector2matrix x (∑ k ∈ Finset.range K, sizes k)
                (∑ k ∈ Finset.range K, sizes k) byrow) K sizes
              (permIter sh (b+1) (fun i => i)) u)).length ≤ R := by
          calc ((List.range R).filter _).length
              ≤ (List.range R).length := List.length_filter_le _ _
            _ = R := List.length_range R
        have h1 := add_le_add_right hle 1
        exact_mod_cast h1
    · intro hmax
      simp only [ksampleEtest, bootLoop_es, List.nil_append] at hmax
      simp only [ksampleEtest, bootLoop_ek, zero_add]
      rw [if_pos hR]
      have hzero : ((List.range R).filter (fun b =>
          multisampleE (if 0 < dim then
              distanceFromData s (vector2matrix x
                (∑ k ∈ Finset.range K, sizes k) dim byrow) dim
            else vector2matrix x (∑ k ∈ Finset.range K, sizes k)
              (∑ k ∈ Finset.range K, sizes k) byrow) K sizes
            (fun i => i) u <
          multisampleE (if 0 < dim then
              distanceFromData s (vector2matrix x
                (∑ k ∈ Finset.range K, sizes k) dim byrow) dim
            else vector2matrix x (∑ k ∈ Finset.range K, sizes k)
              (∑ k ∈ Finset.range K, sizes k) byrow) K sizes
            (permIter sh (b+1) (fun i => i)) u)).length = 0 := by
        refine filter_length_eq_zero _ _ fun b hb => ?_
        have hv := hmax _ (List.mem_map_of_mem _ hb)
        simpa using not_lt.mpr hv
      rw [hzero]
      norm_num
  · intro hR0
    subst hR0
    constructor <;> simp [ksampleEtest, bootLoop]

/-- C3 witness: a run with R = 1 and the identity in place of the random
shuffle, so the single replicate ties the observed statistic; ties do not
count as exceeding and the p-value is 1/(R+1) = 1/2. -/
theorem c3_ksampleEtest_pval_witness :
    (ksampleEtest scenarioVals true 2 (fun _ => 3) 0 1 false
      (fun _ p => p) (fun q => q)).pval = some (1 / ((1 : ℚ) + 1)) := by
  have h := c3_ksampleEtest_pval scenarioVals true 2 (fun _ => 3) 0 1 false
    (fun _ p => p) (fun q => q)
  refine (h.1 (by norm_num)).2.2 ?_
  intro v hv
  simp [ksampleEtest, bootLoop_es, permIter] at hv ⊢
  first
  | exact le_of_eq hv
  | exact le_of_eq hv.symm

/-- C4 (amended): ksampleEtest performs no input validation. With K = 1
(invalid per the spec) it computes the empty pair-sum, returning e0 = 0;
with R = 0 (and any smaller C int, which the code treats identically) the
replicate loop is skipped and the p-value is left unwritten; a group of
size 0 silently contributes 0 to every pair via the m < 1 guard of
twosampleE rather than being rejected. -/
theorem c4_no_validation (x : ℕ → ℚ) (byrow : Bool) (sizes : ℕ → ℕ)
    (dim R : ℕ) (u : Bool) (sh : ℕ → (ℕ → ℕ) → ℕ → ℕ) (s : ℚ → ℚ) :
    (ksampleEtest x byrow 1 sizes dim R u sh s).e0 = 0 ∧
    (ksampleEtest x byrow 1 sizes dim 0 u sh s).pval = none ∧
    (ksampleEtest x byrow 1 sizes dim 0 u sh s).e = [] ∧
    (∀ D n xr yr u2, twosampleE D 0 n xr yr u2 = 0) := by
  refine ⟨?_, ?_, ?_, ?_⟩
  · simp [ksampleEtest, multisampleE]
  · simp [ksampleEtest]
  · simp [ksampleEtest, bootLoop]
  · intro D n xr yr u2
    simp [twosampleE]

/-- C4 counterexample: a concrete invalid configuration (K = 1 < 2, R = 0)
is not rejected: the code runs to completion and produces the ordinary
outputs e0 = 0 and an unwritten p-value, with no error signalled (the
embedded C code has no error path at all). -/
theorem c4_counterexample :
    (ksampleEtest (fun _ => 0) true 1 (fun _ => 1) 0 0 false
      (fun _ p => p) (fun q => q)).e0 = 0 ∧
    (ksampleEtest (fun _ => 0) true 1 (fun _ => 1) 0 0 false
      (fun _ p => p) (fun q => q)).pval = none := by
  constructor <;> simp [ksampleEtest, multisampleE, bootLoop]

/-- C8: with dim = 0 the caller-supplied N×N matrix is reshaped and used
directly as the distance matrix: the observed statistic and every replicate
statistic are computed from that same reshaped matrix, and the matrix held
in the loop state after the run is still exactly the reshaped input — it is
never written after construction. -/
theorem c8_distance_passthrough (x : ℕ → ℚ) (byrow : Bool) (K : ℕ)
    (sizes : ℕ → ℕ) (R : ℕ) (u : Bool) (sh : ℕ → (ℕ → ℕ) → ℕ → ℕ)
    (s : ℚ → ℚ) :
    (ksampleEtest x byrow K sizes 0 R u sh s).e0 =
      multisampleE (vector2matrix x (∑ k ∈ Finset.range K, sizes k)
        (∑ k ∈ Finset.range K, sizes k) byrow) K sizes (fun i => i) u ∧
    (ksampleEtest x byrow K sizes 0 R u sh s).e =
      (List.range R).map (fun b =>
        multisampleE (vector2matrix x (∑ k ∈ Finset.range K, sizes k)
          (∑ k ∈ Finset.range K, sizes k) byrow) K sizes
          (permIter sh (b+1) (fun i => i)) u) ∧
    (ksampleEtest x byrow K sizes 0 R u sh s).Dout =
      vector2matrix x (∑ k ∈ Finset.range K, sizes k)
        (∑ k ∈ Finset.range K, sizes k) byrow := by
  refine ⟨?_, ?_, ?_⟩ <;>
    simp [ksampleEtest, bootLoop_es, bootLoop_D]

/-- C9: the permutation array is the identity (a bijection) when the
observed statistic is computed, and — assuming the external permute
collaborator maps bijections of 0..N-1 to bijections — it is a bijection
before and after each of the R replicate shuffles; the array after the
whole run is the R-fold shuffle of the identity. -/
theorem c9_perm_bijection (x : ℕ → ℚ) (byrow : Bool) (K : ℕ)
    (sizes : ℕ → ℕ) (dim R : ℕ) (u : Bool) (s : ℚ → ℚ)
    (sh : ℕ → (ℕ → ℕ) → ℕ → ℕ) (N : ℕ)
    (_hN : N = ∑ k ∈ Finset.range K, sizes k)
    (hsh : ∀ b p, bijOnIio p N → bijOnIio (sh b p) N) :
    bijOnIio (fun i => i) N ∧
    (∀ n, bijOnIio (permIter sh n (fun i => i)) N) ∧
    (ksampleEtest x byrow K sizes dim R u sh s).permOut =
      permIter sh R (fun i => i) := by
  have hid : bijOnIio (fun i => i) N :=
    ⟨fun a ha => ha, fun a _ b _ hab => hab, fun a ha => ⟨a, ha, rfl⟩⟩
  have hall : ∀ n, bijOnIio (permIter sh n (fun i => i)) N := by
    intro n
    induction n with
    | zero => exact hid
    | succ n ih => exact hsh n _ ih
  exact ⟨hid, hall, by simp [ksampleEtest, bootLoop_perm]⟩

/-- C9 witness: the bijection invariant applied at a concrete run (N = 2,
identity shuffle) after one replicate draw. -/
theorem c9_perm_bijection_witness :
    bijOnIio (permIter (fun _ p => p) 1 (fun i => i)) 2 :=
  (c9_perm_bijection (fun _ => 0) true 2 (fun _ => 1) 0 1 false (fun q => q)
    (fun _ p => p) 2 (by simp) (fun _ _ h => h)).2.1 1

/-- NaN absorbs on the right of subtraction. -/
theorem FP.sub_nan (a : FP) : a.sub FP.nan = FP.nan := by
  cases a <;> rfl

/-- NaN absorbs on the left of subtraction. -/
theorem FP.nan_sub (b : FP) : FP.nan.sub b = FP.nan := by
  cases b <;> rfl

/-- NaN absorbs on the right of multiplication. -/
theorem FP.mul_nan (a : FP) : a.mul FP.nan = FP.nan := by
  cases a <;> rfl

/-- An empty upper-triangle loop leaves the accumulator at (+)0. -/
theorem fpSumUpper_one (f : ℕ → ℕ → FP) : fpSumUpper 1 f = FP.fin 0 := by
  simp [fpSumUpper, List.range_succ]

/-- C7: requesting unbiased = 1 with a singleton group performs the
division m/(m-1) (resp. n/(n-1)) unguarded: 1/0 evaluates to +infinity,
the correction 0 * infinity to NaN, and the NaN propagates to the returned
statistic, which is non-finite — never intercepted or special-cased. -/
theorem c7_unbiased_singleton_div_zero (D : ℕ → ℕ → FP) (m n : ℕ)
    (xrows yrows : ℕ → ℕ) (hm : 1 ≤ m) (hn : 1 ≤ n)
    (hsingle : m = 1 ∨ n = 1) :
    twosampleE_fp D m n xrows yrows true = FP.nan ∧
    (twosampleE_fp D m n xrows yrows true).isFinite = false := by
  have hmain : twosampleE_fp D m n xrows yrows true = FP.nan := by
    rcases hsingle with h1 | h1
    · subst h1
      simp only [twosampleE_fp, eq_self_iff_true, if_true]
      rw [if_neg (by omega)]
      rw [fpSumUpper_one]
      have e1 : (FP.fin 0).mul ((FP.fin 2).div (FP.fin ((1*1 : ℕ) : ℚ)))
          = FP.fin 0 := by norm_num [FP.mul, FP.div]
      have e2 : (FP.fin 0).mul
          ((FP.fin ((1 : ℕ) : ℚ)).div (FP.fin ((1 - 1 : ℕ) : ℚ)))
          = FP.nan := by norm_num [FP.mul, FP.div]
      rw [e1, e2, FP.sub_nan, FP.nan_sub, FP.mul_nan]
    · subst h1
      simp only [twosampleE_fp, eq_self_iff_true, if_true]
      rw [if_neg (by omega)]
      rw [fpSumUpper_one]
      have e1 : (FP.fin 0).mul ((FP.fin 2).div (FP.fin ((1*1 : ℕ) : ℚ)))
          = FP.fin 0 := by norm_num [FP.mul, FP.div]
      have e2 : (FP.fin 0).mul
          ((FP.fin ((1 : ℕ) : ℚ)).div (FP.fin ((1 - 1 : ℕ) : ℚ)))
          = FP.nan := by norm_num [FP.mul, FP.div]
      rw [e1, e2, FP.sub_nan, FP.mul_nan]
  exact ⟨hmain, by rw [hmain]; rfl⟩

/-- C7 witness: both groups singletons, zero distance matrix, unbiased
requested: the statistic is NaN, hence non-finite. -/
theorem c7_unbiased_singleton_div_zero_witness :
    twosampleE_fp (fun _ _ => FP.fin 0) 1 1 (fun i => i) (fun j => 1+j) true
      = FP.nan ∧
    (twosampleE_fp (fun _ _ => FP.fin 0) 1 1 (fun i => i) (fun j => 1+j)
      true).isFinite = false :=
  c7_unbiased_singleton_div_zero (fun _ _ => FP.fin 0) 1 1
    (fun i => i) (fun j => 1+j) (le_refl 1) (le_refl 1) (Or.inl rfl)
